import Mathlib

/-!
Verification of the position-encoding module (`opennmt/layers/position.py`).

The module is embedded shallowly:

* tensors are nested lists of real numbers (`List (List (List ℝ))` for a
  rank-3 tensor of shape `[B, T, D]`);
* machine floating-point values are idealized as real numbers, so `tf.cast`
  to a floating dtype is the identity on values;
* Python exceptions (the explicit `raise ValueError`, the runtime
  `ZeroDivisionError` of `math.log(10000) / (depth / 2 - 1)` at `depth = 2`,
  and the runtime out-of-range failure of `tf.nn.embedding_lookup`) are
  modelled with `Except`.
-/

namespace OpenNMT

/-- The failures the module can produce: `valueError` models the explicit
`raise ValueError` for odd depths, `zeroDivisionError` models the Python
runtime error raised by the division `math.log(10000) / (depth / 2 - 1)`
when the divisor is zero, and `invalidArgument` models the runtime failure
of `tf.nn.embedding_lookup` on an out-of-range index. -/
inductive EncodeError where
  | valueError
  | zeroDivisionError
  | invalidArgument
  deriving DecidableEq, Repr

/-- Floating-point dtypes a Keras layer may be configured with. -/
inductive TFDtype where
  | float16
  | float32
  | float64
  deriving DecidableEq, Repr

/-- Model of `tf.cast(x, dtype)` for floating dtypes, idealized over ℝ: the value is
unchanged. -/
def tfCast (_dtype : TFDtype) (x : ℝ) : ℝ := x

/-- A rank-3 real tensor `[B, T, D]` as nested lists. -/
abbrev Tensor3 := List (List (List ℝ))

/-- Predicate stating that `t` has shape `[B, T, D]`. -/
def isShape3 (t : Tensor3) (B T D : ℕ) : Prop :=
  t.length = B ∧ ∀ m ∈ t, m.length = T ∧ ∀ row ∈ m, row.length = D

/-- The nested length structure of a rank-3 tensor (row counts and row
lengths), used to compare shapes. -/
def shapeOf3 (t : Tensor3) : List (List ℕ) :=
  t.map fun m => m.map List.length

/-! ## SinusoidalPositionEncoder -/

/-- The quantity `log_timescale_increment = math.log(10000) / (depth / 2 - 1)` of
`SinusoidalPositionEncoder.encode` (Python `/` is real division). -/
noncomputable def logTimescaleIncrement (depth : ℕ) : ℝ :=
  Real.log 10000 / ((depth : ℝ) / 2 - 1)

/-- The vector `inv_timescales = np.exp(np.arange(depth / 2) * -log_timescale_increment)`
of `SinusoidalPositionEncoder.encode`. -/
noncomputable def invTimescales (depth : ℕ) : List ℝ :=
  (List.range (depth / 2)).map fun (k : ℕ) =>
    Real.exp ((k : ℝ) * -(logTimescaleIncrement depth))

/-- The state of a `SinusoidalPositionEncoder` instance: the class adds no
field of its own, only the working dtype inherited from the Keras layer
(read by the final `tf.cast(encoding, self.dtype)`). -/
structure SinusoidalPositionEncoder where
  dtype : TFDtype

/-- Model of `SinusoidalPositionEncoder.encode(self, positions, depth)`:

* raises `ValueError` when `depth` is odd;
* computes `log_timescale_increment = math.log(10000) / (depth / 2 - 1)`,
  which raises `ZeroDivisionError` when the divisor `depth / 2 - 1` is zero;
* otherwise, for every position value `p` (cast to float), the output row is
  the `depth / 2` sine channels `sin(p * inv_timescales[k])` followed by the
  `depth / 2` cosine channels `cos(p * inv_timescales[k])` (the
  `tf.concat([tf.sin(scaled_time), tf.cos(scaled_time)], axis=2)` of the
  source), cast to the layer dtype. -/
noncomputable def SinusoidalPositionEncoder.encode (self : SinusoidalPositionEncoder)
    (positions : List (List ℤ)) (depth : ℕ) : Except EncodeError Tensor3 :=
  if depth % 2 ≠ 0 then
    Except.error EncodeError.valueError
  else if (depth : ℝ) / 2 - 1 = 0 then
    Except.error EncodeError.zeroDivisionError
  else
    Except.ok (positions.map fun (row : List ℤ) => row.map fun (p : ℤ) =>
      (((invTimescales depth).map fun sc => Real.sin ((p : ℝ) * sc)) ++
        ((invTimescales depth).map fun sc => Real.cos ((p : ℝ) * sc))).map
        (tfCast self.dtype))

/-! ## PositionEmbedder -/

/-- Model of `tf.minimum(positions, maximum_position)`: elementwise clamp of the
position values to at most `m`. -/
def tfMinimum (positions : List (List ℤ)) (m : ℤ) : List (List ℤ) :=
  positions.map fun row => row.map fun p => min p m

/-- One row lookup of `tf.nn.embedding_lookup`: index `idx` must address a
row of `table`, otherwise the runtime fails. -/
def embeddingLookupRow (table : List (List ℝ)) (idx : ℤ) : Except EncodeError (List ℝ) :=
  if h : 0 ≤ idx ∧ idx.toNat < table.length then
    Except.ok (table.get ⟨idx.toNat, h.2⟩)
  else
    Except.error EncodeError.invalidArgument

/-- The state of a built `PositionEmbedder`: the configured
`maximum_position` and the embedding table created by `build` (shape
`[maximum_position + 1, input_depth]`). -/
structure PositionEmbedder where
  maximum_position : ℕ
  embeddings : List (List ℝ)

/-- Model of `PositionEmbedder.build(self, input_shape)`: creates the embedding
variable of shape `[maximum_position + 1, input_depth]`; the initial values
come from the external initializer, abstracted as `init`. -/
def PositionEmbedder.build (maximum_position : ℕ) (input_depth : ℕ)
    (init : ℕ → ℕ → ℝ) : PositionEmbedder :=
  { maximum_position := maximum_position
    embeddings := (List.range (maximum_position + 1)).map fun i =>
      (List.range input_depth).map fun j => init i j }

/-- Model of `PositionEmbedder.encode(self, positions, depth)`:
`positions = tf.minimum(positions, self.maximum_position)` followed by
`tf.nn.embedding_lookup(self.embeddings, positions)`.  Note that the source
never reads the `depth` argument. -/
def PositionEmbedder.encode (self : PositionEmbedder)
    (positions : List (List ℤ)) (depth : ℕ) : Except EncodeError Tensor3 :=
  (tfMinimum positions (self.maximum_position : ℤ)).mapM fun row =>
    row.mapM fun p => embeddingLookupRow self.embeddings p

/-! ## PositionEncoder.call -/

/-- Value of `tf.shape(inputs)[1]`, the number of timesteps of a `[B, T, D]` input. -/
def timesteps (inputs : Tensor3) : ℕ := (inputs.headD []).length

/-- Value of `inputs.get_shape().as_list()[-1]`, the static input depth `D`. -/
def inputDim (inputs : Tensor3) : ℕ := ((inputs.headD []).headD []).length

/-- The position sequence built by `PositionEncoder.call`:
`tf.range(timesteps) + 1` when `position is None`, else `[position]`. -/
def positionsFor (timesteps : ℕ) (position : Option ℤ) : List ℤ :=
  match position with
  | none => (List.range timesteps).map fun (i : ℕ) => (i : ℤ) + 1
  | some p => [p]

/-- Model of `tf.tile(position_encoding, [batch_size, 1, 1])`: the leading axis of
`t` is repeated `batchSize` times. -/
def tileBatch (t : Tensor3) (batchSize : ℕ) : Tensor3 :=
  (List.replicate batchSize t).flatten

/-- Modelled from the spec: the default `SumReducer` comes from
`opennmt.layers.reducer`, which is not part of the sources at hand.  Per the
spec, the default merge policy is an element-wise sum that requires the
operands to share their shape; it is undefined (here: `none`) otherwise. -/
def sumReducer (xs ys : Tensor3) : Option Tensor3 :=
  if shapeOf3 xs = shapeOf3 ys then
    some (List.zipWith (fun a b => List.zipWith (fun c d => List.zipWith (· + ·) c d) a b) xs ys)
  else
    none

/-- Model of `PositionEncoder.call(self, inputs, position=None)`: builds the position
sequence, invokes the strategy `encode` on it wrapped in a batch dimension
of size 1 with the input depth, tiles the encoding along the batch axis, and
merges with the reducer.  The strategy and reducer are the parameters. -/
def PositionEncoder.call
    (encode : List (List ℤ) → ℕ → Except EncodeError Tensor3)
    (reducer : Tensor3 → Tensor3 → Option Tensor3)
    (inputs : Tensor3) (position : Option ℤ) :
    Except EncodeError (Option Tensor3) :=
  (encode [positionsFor (timesteps inputs) position] (inputDim inputs)).map fun pe =>
    reducer inputs (tileBatch pe inputs.length)

/-! ## Helper lemmas -/

theorem half_cast_sub_one_ne_zero {depth : ℕ} (h : depth ≠ 2) :
    (depth : ℝ) / 2 - 1 ≠ 0 := by
  intro h0
  have hd : (depth : ℝ) = 2 := by linarith
  exact h (by exact_mod_cast hd)

theorem invTimescales_length (depth : ℕ) :
    (invTimescales depth).length = depth / 2 := by
  simp [invTimescales]

theorem invTimescales_getD (depth k : ℕ) (hk : k < depth / 2) :
    (invTimescales depth).getD k 0 =
      Real.exp ((k : ℝ) * -(logTimescaleIncrement depth)) := by
  unfold invTimescales
  rw [List.getD_eq_getElem _ _ (by simpa using hk)]
  simp

theorem getD_map_lt {α β : Type _} (f : α → β) (l : List α) (n : ℕ) (d : β)
    (d' : α) (h : n < l.length) :
    (l.map f).getD n d = f (l.getD n d') := by
  rw [List.getD_eq_getElem _ _ (by simpa using h), List.getElem_map,
    List.getD_eq_getElem _ _ h]

/-- On the non-error path (`depth` even and `depth / 2 - 1 ≠ 0`), the
sinusoidal encoding is the per-position concatenation of sine and cosine
channels; the final dtype cast is the identity on ideal reals. -/
theorem sinusoidal_encode_eq (s : SinusoidalPositionEncoder)
    (positions : List (List ℤ)) (depth : ℕ)
    (heven : depth % 2 = 0) (h2 : depth ≠ 2) :
    s.encode positions depth =
      Except.ok (positions.map fun (row : List ℤ) => row.map fun (p : ℤ) =>
        ((invTimescales depth).map fun sc => Real.sin ((p : ℝ) * sc)) ++
          ((invTimescales depth).map fun sc => Real.cos ((p : ℝ) * sc))) := by
  unfold SinusoidalPositionEncoder.encode
  rw [if_neg (by simp [heven]), if_neg (half_cast_sub_one_ne_zero h2)]
  refine congrArg Except.ok (List.map_congr_left fun row _ => ?_)
  refine List.map_congr_left fun p _ => ?_
  exact List.map_id _

/-! ## Claims about the sinusoidal encoder -/

/-- C1: For every batch of positions and every even depth `D` with
`D / 2 ≥ 2`, `SinusoidalPositionEncoder.encode` returns (with shape
`[B, T_or_1, D]`) the sine half concatenated with the cosine half along the
depth axis: channel `k` of the first `D / 2` channels is
`sin(p * exp(-k * ln(10000) / (D / 2 - 1)))` and channel `k` of the last
`D / 2` channels is `cos(p * exp(-k * ln(10000) / (D / 2 - 1)))` for each
position value `p`. -/
theorem sinusoidal_encode_channels (s : SinusoidalPositionEncoder)
    (positions : List (List ℤ)) (depth : ℕ)
    (heven : depth % 2 = 0) (hhalf : 2 ≤ depth / 2) :
    ∃ out, s.encode positions depth = Except.ok out ∧
      out.length = positions.length ∧
      ∀ b, b < positions.length →
        (out.getD b []).length = (positions.getD b []).length ∧
        ∀ t, t < (positions.getD b []).length →
          ((out.getD b []).getD t []).length = depth ∧
          ∀ k, k < depth / 2 →
            ((out.getD b []).getD t []).getD k 0 =
              Real.sin (((positions.getD b []).getD t 0 : ℝ) *
                Real.exp (-(k : ℝ) * (Real.log 10000 / ((depth : ℝ) / 2 - 1)))) ∧
            ((out.getD b []).getD t []).getD (depth / 2 + k) 0 =
              Real.cos (((positions.getD b []).getD t 0 : ℝ) *
                Real.exp (-(k : ℝ) * (Real.log 10000 / ((depth : ℝ) / 2 - 1)))) := by
  have h2 : depth ≠ 2 := by
    intro hd; subst hd; simp at hhalf
  refine ⟨_, sinusoidal_encode_eq s positions depth heven h2, by simp, ?_⟩
  intro b hb
  rw [getD_map_lt _ _ _ _ [] hb]
  refine ⟨by simp, ?_⟩
  intro t ht
  rw [getD_map_lt _ _ _ _ 0 ht]
  set p : ℤ := (positions.getD b []).getD t 0 with hp
  have hlenA : ((invTimescales depth).map fun sc => Real.sin ((p : ℝ) * sc)).length =
      depth / 2 := by simp [invTimescales_length]
  have hlenB : ((invTimescales depth).map fun sc => Real.cos ((p : ℝ) * sc)).length =
      depth / 2 := by simp [invTimescales_length]
  constructor
  · rw [List.length_append, hlenA, hlenB]; omega
  intro k hk
  have hexp : Real.exp ((k : ℝ) * -(logTimescaleIncrement depth)) =
      Real.exp (-(k : ℝ) * (Real.log 10000 / ((depth : ℝ) / 2 - 1))) := by
    unfold logTimescaleIncrement; ring_nf
  constructor
  · rw [List.getD_append _ _ _ _ (by rw [hlenA]; exact hk),
      getD_map_lt _ _ _ _ 0 (by rw [invTimescales_length]; exact hk),
      invTimescales_getD depth k hk, hexp]
  · rw [List.getD_append_right _ _ _ _ (by rw [hlenA]; omega), hlenA,
      Nat.add_sub_cancel_left,
      getD_map_lt _ _ _ _ 0 (by rw [invTimescales_length]; exact hk),
      invTimescales_getD depth k hk, hexp]

/-- Witness for C1 at `positions = [[1]]`, `depth = 4`. -/
theorem sinusoidal_encode_channels_witness :
    (4 : ℕ) % 2 = 0 ∧ 2 ≤ 4 / 2 ∧
    (∃ out, SinusoidalPositionEncoder.encode ⟨TFDtype.float32⟩ [[1]] 4 = Except.ok out ∧
      out.length = ([[(1 : ℤ)]] : List (List ℤ)).length ∧
      ∀ b, b < ([[(1 : ℤ)]] : List (List ℤ)).length →
        (out.getD b []).length = (([[(1 : ℤ)]] : List (List ℤ)).getD b []).length ∧
        ∀ t, t < (([[(1 : ℤ)]] : List (List ℤ)).getD b []).length →
          ((out.getD b []).getD t []).length = 4 ∧
          ∀ k, k < 4 / 2 →
            ((out.getD b []).getD t []).getD k 0 =
              Real.sin (((([[(1 : ℤ)]] : List (List ℤ)).getD b []).getD t 0 : ℝ) *
                Real.exp (-(k : ℝ) * (Real.log 10000 / ((4 : ℕ) / 2 - 1)))) ∧
            ((out.getD b []).getD t []).getD (4 / 2 + k) 0 =
              Real.cos (((([[(1 : ℤ)]] : List (List ℤ)).getD b []).getD t 0 : ℝ) *
                Real.exp (-(k : ℝ) * (Real.log 10000 / ((4 : ℕ) / 2 - 1))))) :=
  ⟨by decide, by decide,
    sinusoidal_encode_channels ⟨TFDtype.float32⟩ [[1]] 4 (by decide) (by decide)⟩

/-- C2, counterexample: At `depth = 2` the call is *not* rejected by an
explicit configuration check: it passes the even-depth check and the
log-increment division itself fails with an unchecked `ZeroDivisionError`,
which is not the explicit `ValueError` configuration error. -/
theorem sinusoidal_depth_two_counterexample :
    SinusoidalPositionEncoder.encode ⟨TFDtype.float32⟩ [[1]] 2 =
      Except.error EncodeError.zeroDivisionError ∧
    EncodeError.zeroDivisionError ≠ EncodeError.valueError := by
  refine ⟨?_, by decide⟩
  unfold SinusoidalPositionEncoder.encode
  rw [if_neg (by norm_num), if_pos (by norm_num)]

/-- C2, amended: For `depth = 2`, `encode` passes the even-depth check
and then fails with the runtime `ZeroDivisionError` raised by the
log-increment division `math.log(10000) / (depth / 2 - 1)`; there is no
explicit configuration check for this case. -/
theorem sinusoidal_depth_two_zero_division (s : SinusoidalPositionEncoder)
    (positions : List (List ℤ)) :
    s.encode positions 2 = Except.error EncodeError.zeroDivisionError := by
  unfold SinusoidalPositionEncoder.encode
  rw [if_neg (by norm_num), if_pos (by norm_num)]

/-- C5: For every odd depth, `SinusoidalPositionEncoder.encode` raises
`ValueError` and never returns a value. -/
theorem sinusoidal_odd_depth_value_error (s : SinusoidalPositionEncoder)
    (positions : List (List ℤ)) (depth : ℕ) (hodd : depth % 2 = 1) :
    s.encode positions depth = Except.error EncodeError.valueError := by
  unfold SinusoidalPositionEncoder.encode
  rw [if_pos (by omega)]

/-- Witness for C5 at `depth = 5`. -/
theorem sinusoidal_odd_depth_value_error_witness :
    (5 : ℕ) % 2 = 1 ∧
    SinusoidalPositionEncoder.encode ⟨TFDtype.float32⟩ [[1]] 5 =
      Except.error EncodeError.valueError :=
  ⟨by decide, sinusoidal_odd_depth_value_error ⟨TFDtype.float32⟩ [[1]] 5 (by decide)⟩

/-! ## Claims about the position embedder -/

theorem except_bind_ok {ε α β : Type _} (a : α) (g : α → Except ε β) :
    (Except.ok a >>= g) = g a := rfl

theorem except_bind_error {ε α β : Type _} (e : ε) (g : α → Except ε β) :
    ((Except.error e : Except ε α) >>= g) = Except.error e := rfl

theorem except_pure {ε α : Type _} (a : α) : (pure a : Except ε α) = Except.ok a := rfl

theorem list_mapM_ok_of_forall {α β : Type _} (f : α → Except EncodeError β)
    (l : List α) (h : ∀ a ∈ l, ∃ b, f a = Except.ok b) :
    ∃ r, l.mapM f = Except.ok r := by
  induction l with
  | nil => exact ⟨[], rfl⟩
  | cons a l ih =>
    obtain ⟨b, hb⟩ := h a (List.mem_cons_self a l)
    obtain ⟨r, hr⟩ := ih fun x hx => h x (List.mem_cons_of_mem a hx)
    exact ⟨b :: r, by
      rw [List.mapM_cons, hb, except_bind_ok, hr, except_bind_ok, except_pure]⟩

theorem forall_of_list_mapM_ok {α β : Type _} (f : α → Except EncodeError β)
    (l : List α) (r : List β) (h : l.mapM f = Except.ok r) :
    ∀ b ∈ r, ∃ a ∈ l, f a = Except.ok b := by
  induction l generalizing r with
  | nil =>
    have h0 : (Except.ok [] : Except EncodeError (List β)) = Except.ok r := h
    cases h0
    simp
  | cons a l ih =>
    rw [List.mapM_cons] at h
    cases hfa : f a with
    | error e => rw [hfa, except_bind_error] at h; cases h
    | ok x =>
      rw [hfa, except_bind_ok] at h
      cases hml : l.mapM f with
      | error e => rw [hml, except_bind_error] at h; cases h
      | ok xs =>
        rw [hml, except_bind_ok, except_pure] at h
        cases h
        intro b hb
        rcases List.mem_cons.mp hb with h1 | h2
        · exact ⟨a, List.mem_cons_self a l, h1 ▸ hfa⟩
        · obtain ⟨a', ha', hfa'⟩ := ih xs hml b h2
          exact ⟨a', List.mem_cons_of_mem a ha', hfa'⟩

/-- C3, counterexample: A `PositionEmbedder` whose table was built for
depth 3 and then invoked with depth 5 does *not* raise a shape-mismatch
error: `encode` never reads its `depth` argument and returns the
depth-3 rows of the table. -/
theorem position_embedder_depth_mismatch_counterexample :
    (PositionEmbedder.build 1 3 fun _ _ => (0 : ℝ)).encode [[0]] 5 =
      Except.ok [[[0, 0, 0]]] ∧ (3 : ℕ) ≠ 5 :=
  ⟨rfl, by decide⟩

/-- C3, amended: `PositionEmbedder.encode` ignores its `depth` argument
entirely: calling with any two depths gives identical results (in
particular no shape-mismatch error is raised), and the rows of a
successful result always have the depth the table was built with. -/
theorem position_embedder_encode_ignores_depth :
    (∀ (self : PositionEmbedder) (positions : List (List ℤ)) (d₁ d₂ : ℕ),
      self.encode positions d₁ = self.encode positions d₂) ∧
    ∀ (M D : ℕ) (init : ℕ → ℕ → ℝ) (positions : List (List ℤ)) (depth : ℕ)
      (out : Tensor3),
      (PositionEmbedder.build M D init).encode positions depth = Except.ok out →
      ∀ m ∈ out, ∀ row ∈ m, row.length = D := by
  refine ⟨fun self positions d₁ d₂ => rfl, ?_⟩
  intro M D init positions depth out hout m hm row hrow
  simp only [PositionEmbedder.encode] at hout
  obtain ⟨posrow, _, hrowM⟩ := forall_of_list_mapM_ok _ _ _ hout m hm
  obtain ⟨p, _, hlookup⟩ := forall_of_list_mapM_ok _ _ _ hrowM row hrow
  unfold embeddingLookupRow at hlookup
  split at hlookup
  · cases hlookup
    have hlen : ∀ r ∈ (PositionEmbedder.build M D init).embeddings, r.length = D := by
      intro r hr
      simp [PositionEmbedder.build] at hr
      obtain ⟨i, _, rfl⟩ := hr
      simp
    exact hlen _ (List.get_mem _ _ _)
  · cases hlookup

/-- Witness for C3's amended claim at a table built for depth 2 and a call
with depth 7. -/
theorem position_embedder_encode_ignores_depth_witness :
    ((PositionEmbedder.build 1 2 fun _ _ => (0 : ℝ)).encode [[0]] 7 =
      Except.ok [[[0, 0]]]) ∧
    ∀ m ∈ ([[[(0 : ℝ), 0]]] : Tensor3), ∀ row ∈ m, row.length = 2 :=
  ⟨rfl, position_embedder_encode_ignores_depth.2 1 2 (fun _ _ => 0) [[0]] 7 _ rfl⟩

/-- C6: `PositionEmbedder.encode` clamps each position `p` to
`min(p, maximum_position)` before the lookup: encoding position `M + 5`
gives the same rows as encoding position `M`, and the clamp leaves values
below 0 unchanged. -/
theorem position_embedder_clamps (M : ℕ) (table : List (List ℝ))
    (htable : table.length = M + 1) (depth : ℕ) :
    PositionEmbedder.encode ⟨M, table⟩ [[(M : ℤ) + 5]] depth =
      PositionEmbedder.encode ⟨M, table⟩ [[(M : ℤ)]] depth ∧
    ∀ p : ℤ, p < 0 → tfMinimum [[p]] ((M : ℕ) : ℤ) = [[p]] := by
  constructor
  · have hmin1 : min ((M : ℤ) + 5) ((M : ℕ) : ℤ) = (M : ℤ) := by omega
    have hmin2 : min ((M : ℤ)) ((M : ℕ) : ℤ) = (M : ℤ) := by omega
    have h1 : tfMinimum [[(M : ℤ) + 5]] ((M : ℕ) : ℤ) = [[(M : ℤ)]] := by
      simp [tfMinimum, hmin1]
    have h2 : tfMinimum [[(M : ℤ)]] ((M : ℕ) : ℤ) = [[(M : ℤ)]] := by
      simp [tfMinimum, hmin2]
    simp only [PositionEmbedder.encode]
    rw [h1, h2]
  · intro p hp
    have hmin : min p ((M : ℕ) : ℤ) = p := by omega
    simp [tfMinimum, hmin]

/-- Witness for C6 at `M = 2` and a table of shape `[3, 1]`. -/
theorem position_embedder_clamps_witness :
    ([[(0 : ℝ)], [0], [0]] : List (List ℝ)).length = 2 + 1 ∧
    (PositionEmbedder.encode ⟨2, [[0], [0], [0]]⟩ [[(2 : ℤ) + 5]] 1 =
      PositionEmbedder.encode ⟨2, [[0], [0], [0]]⟩ [[(2 : ℤ)]] 1 ∧
    ∀ p : ℤ, p < 0 → tfMinimum [[p]] ((2 : ℕ) : ℤ) = [[p]]) :=
  ⟨rfl, position_embedder_clamps 2 [[0], [0], [0]] rfl 1⟩

/-- C7, counterexample: The lookup index is *not* always in `[0, M]`:
with `M = 2` and a table of shape `[3, 1]`, position `-1` is left at `-1`
by the clamp (which only guards the upper bound), falls outside `[0, 2]`,
and the lookup fails instead of addressing a valid row. -/
theorem position_embedder_negative_index_counterexample :
    tfMinimum [[-1]] ((2 : ℕ) : ℤ) = [[-1]] ∧ (-1 : ℤ) < 0 ∧
    PositionEmbedder.encode ⟨2, [[0], [0], [0]]⟩ [[-1]] 1 =
      Except.error EncodeError.invalidArgument :=
  ⟨by decide, by decide, rfl⟩

/-- C7, amended: Every position index used for the lookup is clamped to
at most `M`; when additionally all position values are non-negative, every
lookup index lies in `[0, M]`, each lookup addresses a valid row of the
`[M + 1, D]` table, and `encode` succeeds. -/
theorem position_embedder_lookup_in_range (M : ℕ) (table : List (List ℝ))
    (htable : table.length = M + 1) (positions : List (List ℤ))
    (hpos : ∀ row ∈ positions, ∀ p ∈ row, 0 ≤ p) (depth : ℕ) :
    (∀ row ∈ tfMinimum positions ((M : ℕ) : ℤ), ∀ q ∈ row, 0 ≤ q ∧ q ≤ (M : ℤ)) ∧
    ∃ out, PositionEmbedder.encode ⟨M, table⟩ positions depth = Except.ok out := by
  have hclamp : ∀ row ∈ tfMinimum positions ((M : ℕ) : ℤ),
      ∀ q ∈ row, 0 ≤ q ∧ q ≤ (M : ℤ) := by
    intro row hrow q hq
    simp only [tfMinimum, List.mem_map] at hrow
    obtain ⟨row₀, hrow₀, rfl⟩ := hrow
    simp only [List.mem_map] at hq
    obtain ⟨p, hp, rfl⟩ := hq
    have h0 := hpos row₀ hrow₀ p hp
    exact ⟨le_min h0 (by omega), min_le_right _ _⟩
  refine ⟨hclamp, ?_⟩
  simp only [PositionEmbedder.encode]
  apply list_mapM_ok_of_forall
  intro row hrow
  apply list_mapM_ok_of_forall
  intro q hq
  obtain ⟨hq0, hqM⟩ := hclamp row hrow q hq
  unfold embeddingLookupRow
  exact ⟨_, dif_pos ⟨hq0, by rw [htable]; omega⟩⟩

/-- Witness for C7's amended claim at `M = 1`, table `[[0], [0]]`,
positions `[[0, 1]]`. -/
theorem position_embedder_lookup_in_range_witness :
    ([[(0 : ℝ)], [0]] : List (List ℝ)).length = 1 + 1 ∧
    (∀ row ∈ ([[(0 : ℤ), 1]] : List (List ℤ)), ∀ p ∈ row, 0 ≤ p) ∧
    ((∀ row ∈ tfMinimum [[(0 : ℤ), 1]] ((1 : ℕ) : ℤ), ∀ q ∈ row, 0 ≤ q ∧ q ≤ ((1 : ℕ) : ℤ)) ∧
      ∃ out, PositionEmbedder.encode ⟨1, [[0], [0]]⟩ [[(0 : ℤ), 1]] 3 = Except.ok out) :=
  ⟨rfl, by decide, position_embedder_lookup_in_range 1 [[0], [0]] rfl [[0, 1]] (by decide) 3⟩

/-- C9: `SinusoidalPositionEncoder.encode` is deterministic and carries
no learned or mutable state: the result is purely a function of
`(positions, depth)` — in particular it does not depend on the encoder
instance (in the idealized real-valued semantics, where the final floating
dtype cast is the identity). -/
theorem sinusoidal_encode_deterministic (s₁ s₂ : SinusoidalPositionEncoder)
    (positions : List (List ℤ)) (depth : ℕ) :
    s₁.encode positions depth = s₂.encode positions depth := rfl

/-! ## Claims about `PositionEncoder.call` -/

theorem except_map_ok {ε α β : Type _} (f : α → β) (a : α) :
    Except.map f (Except.ok a : Except ε α) = Except.ok (f a) := rfl

theorem shapeOf3_eq_replicate {t : Tensor3} {B T D : ℕ} (h : isShape3 t B T D) :
    shapeOf3 t = List.replicate B (List.replicate T D) := by
  obtain ⟨hlen, hmem⟩ := h
  rw [List.eq_replicate_iff]
  refine ⟨by simp [shapeOf3, hlen], ?_⟩
  intro b hb
  simp only [shapeOf3, List.mem_map] at hb
  obtain ⟨m, hm, rfl⟩ := hb
  obtain ⟨hmT, hrow⟩ := hmem m hm
  rw [List.eq_replicate_iff]
  refine ⟨by simp [hmT], ?_⟩
  intro d hd
  simp only [List.mem_map] at hd
  obtain ⟨row, hrowm, rfl⟩ := hd
  exact hrow row hrowm

theorem isShape3_sumMerge {x y : Tensor3} {B T D : ℕ}
    (hx : isShape3 x B T D) (hy : isShape3 y B T D) :
    isShape3
      (List.zipWith (fun a b => List.zipWith (fun c d => List.zipWith (· + ·) c d) a b) x y)
      B T D := by
  obtain ⟨hxl, hxm⟩ := hx
  obtain ⟨hyl, hym⟩ := hy
  refine ⟨by simp [hxl, hyl], ?_⟩
  intro m hm
  rw [List.mem_iff_getElem] at hm
  obtain ⟨i, hi, rfl⟩ := hm
  rw [List.getElem_zipWith]
  have hxi := hxm _ (List.getElem_mem (List.lt_length_left_of_zipWith hi))
  have hyi := hym _ (List.getElem_mem (List.lt_length_right_of_zipWith hi))
  refine ⟨by simp [hxi.1, hyi.1], ?_⟩
  intro row hrow
  rw [List.mem_iff_getElem] at hrow
  obtain ⟨j, hj, rfl⟩ := hrow
  rw [List.getElem_zipWith]
  have h1 := hxi.2 _ (List.getElem_mem (List.lt_length_left_of_zipWith hj))
  have h2 := hyi.2 _ (List.getElem_mem (List.lt_length_right_of_zipWith hj))
  simp [h1, h2]

theorem tileBatch_eq_replicate {pe : Tensor3} (B : ℕ) (hpe : pe.length = 1) :
    tileBatch pe B = List.replicate B (pe.getD 0 []) := by
  have hsing : pe = [pe.getD 0 []] := by
    cases pe with
    | nil => simp at hpe
    | cons e rest =>
      cases rest with
      | nil => rfl
      | cons e₂ rest₂ => simp at hpe
  rw [hsing]
  simp [tileBatch]

theorem isShape3_tileBatch {pe : Tensor3} {B T D : ℕ}
    (hpe : isShape3 pe 1 T D) :
    isShape3 (tileBatch pe B) B T D := by
  rw [tileBatch_eq_replicate B hpe.1]
  refine ⟨by simp, ?_⟩
  intro m hm
  have hm0 : m = pe.getD 0 [] := List.eq_of_mem_replicate hm
  subst hm0
  refine hpe.2 _ ?_
  rw [List.getD_eq_getElem _ _ (by rw [hpe.1]; exact Nat.one_pos)]
  exact List.getElem_mem _

/-- C4: With `position = None`, `call` passes to the strategy's `encode`
exactly the single batched sequence `[1, 2, ..., T]`: the sequence used is
`positionsFor T none`, its length is `T`, and its `i`-th entry is `i + 1`
(1-indexed, one index per timestep, shared across the batch since `encode`
receives it wrapped in a batch dimension of size 1). -/
theorem call_default_position_sequence (T : ℕ) :
    (∀ (encode : List (List ℤ) → ℕ → Except EncodeError Tensor3)
        (reducer : Tensor3 → Tensor3 → Option Tensor3) (inputs : Tensor3),
      PositionEncoder.call encode reducer inputs none =
        (encode [positionsFor (timesteps inputs) none] (inputDim inputs)).map fun pe =>
          reducer inputs (tileBatch pe inputs.length)) ∧
    (positionsFor T none).length = T ∧
    ∀ i, i < T → (positionsFor T none).getD i 0 = (i : ℤ) + 1 := by
  refine ⟨fun _ _ _ => rfl, by simp [positionsFor], ?_⟩
  intro i hi
  unfold positionsFor
  rw [getD_map_lt _ _ _ _ 0 (by simpa using hi),
    List.getD_eq_getElem _ _ (by simpa using hi), List.getElem_range]

/-- Witness for C4 at `T = 3`, `i = 1`. -/
theorem call_default_position_sequence_witness :
    (1 : ℕ) < 3 ∧ (positionsFor 3 none).getD 1 0 = ((1 : ℕ) : ℤ) + 1 :=
  ⟨by decide, (call_default_position_sequence 3).2.2 1 (by decide)⟩

/-- C8: For an input of shape `[B, T, D]` with `position` omitted and
the (spec-modelled) sum merger: the tiled position encoding merged into the
input is the same tensor in every batch row (the single canonical encoding
tiled along the batch axis), and `call` returns a tensor of shape
`[B, T, D]`. -/
theorem call_shape_and_shared_encoding
    (encode : List (List ℤ) → ℕ → Except EncodeError Tensor3)
    (inputs : Tensor3) (B T D : ℕ)
    (hB : 0 < B) (hin : isShape3 inputs B T D)
    (hT : timesteps inputs = T) (hD : inputDim inputs = D)
    (pe : Tensor3) (hpe : encode [positionsFor T none] D = Except.ok pe)
    (hpeShape : isShape3 pe 1 T D) :
    (∀ b, b < B → (tileBatch pe B).getD b [] = pe.getD 0 []) ∧
    ∃ out, PositionEncoder.call encode sumReducer inputs none = Except.ok (some out) ∧
      isShape3 out B T D := by
  constructor
  · intro b hb
    rw [tileBatch_eq_replicate B hpeShape.1,
      List.getD_eq_getElem _ _ (by simpa using hb), List.getElem_replicate]
  · have hlen : inputs.length = B := hin.1
    have htiled : isShape3 (tileBatch pe B) B T D := isShape3_tileBatch hpeShape
    have hshapes : shapeOf3 inputs = shapeOf3 (tileBatch pe B) := by
      rw [shapeOf3_eq_replicate hin, shapeOf3_eq_replicate htiled]
    refine ⟨_, ?_, isShape3_sumMerge hin htiled⟩
    unfold PositionEncoder.call
    rw [hT, hD, hpe, except_map_ok, hlen]
    unfold sumReducer
    rw [if_pos hshapes]

/-- Witness for C8 at `B = 2`, `T = 1`, `D = 2` with a constant strategy. -/
theorem call_shape_and_shared_encoding_witness :
    (0 : ℕ) < 2 ∧ isShape3 [[[(1 : ℝ), 2]], [[3, 4]]] 2 1 2 ∧
    timesteps [[[(1 : ℝ), 2]], [[3, 4]]] = 1 ∧ inputDim [[[(1 : ℝ), 2]], [[3, 4]]] = 2 ∧
    (fun (_ : List (List ℤ)) (_ : ℕ) => (Except.ok [[[5, 6]]] : Except EncodeError Tensor3))
      [positionsFor 1 none] 2 = Except.ok ([[[(5 : ℝ), 6]]] : Tensor3) ∧
    isShape3 [[[(5 : ℝ), 6]]] 1 1 2 ∧
    ((∀ b, b < 2 → (tileBatch [[[(5 : ℝ), 6]]] 2).getD b [] = ([[[(5 : ℝ), 6]]] : Tensor3).getD 0 []) ∧
      ∃ out, PositionEncoder.call
          (fun (_ : List (List ℤ)) (_ : ℕ) => (Except.ok [[[5, 6]]] : Except EncodeError Tensor3))
          sumReducer [[[(1 : ℝ), 2]], [[3, 4]]] none = Except.ok (some out) ∧
        isShape3 out 2 1 2) :=
  ⟨by decide, ⟨rfl, by norm_num [isShape3]⟩, rfl, rfl, rfl, ⟨rfl, by norm_num [isShape3]⟩,
    call_shape_and_shared_encoding _ [[[(1 : ℝ), 2]], [[3, 4]]] 2 1 2 (by decide)
      ⟨rfl, by norm_num [isShape3]⟩ rfl rfl [[[(5 : ℝ), 6]]] rfl ⟨rfl, by norm_num [isShape3]⟩⟩

/-- C10: When an explicit scalar position is supplied, `call` passes
exactly one position index to the strategy regardless of `T`
(`positionsFor T (some p) = [p]`), the resulting sinusoidal encoding has
batch and time dimension 1, and the (spec-modelled, shape-strict) sum
merger of the input with the batch-tiled encoding is defined exactly when
`T = 1`. -/
theorem call_explicit_position_single_index
    (T : ℕ) (p : ℤ) (s : SinusoidalPositionEncoder) (D : ℕ)
    (heven : D % 2 = 0) (hD2 : D ≠ 2)
    (inputs : Tensor3) (B : ℕ) (hB : 0 < B) (hin : isShape3 inputs B T D) :
    positionsFor T (some p) = [p] ∧
    ∃ out, s.encode [positionsFor T (some p)] D = Except.ok out ∧
      out.length = 1 ∧ (out.getD 0 []).length = 1 ∧
      ((sumReducer inputs (tileBatch out B)).isSome ↔ T = 1) := by
  refine ⟨rfl, ?_⟩
  have hpf : positionsFor T (some p) = [p] := rfl
  have henc : s.encode [[p]] D = Except.ok
      [[((invTimescales D).map fun sc => Real.sin ((p : ℝ) * sc)) ++
        ((invTimescales D).map fun sc => Real.cos ((p : ℝ) * sc))]] := by
    rw [sinusoidal_encode_eq s [[p]] D heven hD2]
    rfl
  rw [hpf, henc]
  refine ⟨_, rfl, rfl, rfl, ?_⟩
  have hrowlen : (((invTimescales D).map fun sc => Real.sin ((p : ℝ) * sc)) ++
      ((invTimescales D).map fun sc => Real.cos ((p : ℝ) * sc))).length = D := by
    rw [List.length_append]
    simp only [List.length_map, invTimescales_length]
    omega
  have hout : isShape3
      [[((invTimescales D).map fun sc => Real.sin ((p : ℝ) * sc)) ++
        ((invTimescales D).map fun sc => Real.cos ((p : ℝ) * sc))]] 1 1 D := by
    refine ⟨rfl, ?_⟩
    intro m hm
    rw [List.mem_singleton] at hm
    subst hm
    refine ⟨rfl, ?_⟩
    intro row hrow
    rw [List.mem_singleton] at hrow
    subst hrow
    exact hrowlen
  have htiled := isShape3_tileBatch (B := B) hout
  have h1 := shapeOf3_eq_replicate hin
  have h2 := shapeOf3_eq_replicate htiled
  unfold sumReducer
  rw [h1, h2]
  by_cases hTone : T = 1
  · subst hTone
    simp
  · have hne : List.replicate B (List.replicate T D) ≠
        List.replicate B (List.replicate 1 D) := by
      intro hcontra
      have h0 : (List.replicate B (List.replicate T D)).getD 0 [] =
          (List.replicate B (List.replicate 1 D)).getD 0 [] := by rw [hcontra]
      rw [List.getD_eq_getElem _ _ (by simpa using hB),
        List.getD_eq_getElem _ _ (by simpa using hB),
        List.getElem_replicate, List.getElem_replicate] at h0
      have hlen := congrArg List.length h0
      simp at hlen
      exact hTone hlen
    rw [if_neg hne]
    simp [hTone]

/-- Witness for C10 at `T = 1`, `p = 7`, `D = 4`, `B = 1`. -/
theorem call_explicit_position_single_index_witness :
    (4 : ℕ) % 2 = 0 ∧ (4 : ℕ) ≠ 2 ∧ (0 : ℕ) < 1 ∧
    isShape3 [[[(1 : ℝ), 2, 3, 4]]] 1 1 4 ∧
    (positionsFor 1 (some 7) = [(7 : ℤ)] ∧
      ∃ out, SinusoidalPositionEncoder.encode ⟨TFDtype.float32⟩
          [positionsFor 1 (some 7)] 4 = Except.ok out ∧
        out.length = 1 ∧ (out.getD 0 []).length = 1 ∧
        ((sumReducer [[[(1 : ℝ), 2, 3, 4]]] (tileBatch out 1)).isSome ↔ (1 : ℕ) = 1)) :=
  ⟨by decide, by decide, by decide, ⟨rfl, by norm_num [isShape3]⟩,
    call_explicit_position_single_index 1 7 ⟨TFDtype.float32⟩ 4 (by decide) (by decide)
      [[[(1 : ℝ), 2, 3, 4]]] 1 (by decide) ⟨rfl, by norm_num [isShape3]⟩⟩

end OpenNMT
